import Mathlib

/-!
Verification of the wgslPreprocessor include-flattening program
(src/wgslPreprocessor.cpp) against its natural-language specification.

The embedding models:
* file identities as `Path := String` (canonical paths; `std::filesystem::canonical`
  is modelled as the identity on this abstract path space, which is exactly the
  fallback branch of `removeDot` when canonicalization fails);
* the file system as `FS := Path → Option (List Line)` (`none` = the stream
  cannot be opened, `some ls` = the file opens and `std::getline` yields `ls`);
* a line as `Line := List Char` (a `std::string`);
* the depth map `std::map<path, uint32_t> activeIncludes` as an association
  list `DepthMap := List (Path × Nat)` with unique keys (the C++ map iterates
  in key order while the association list keeps insertion order; the spec and
  the claims treat the order of entries of equal depth as arbitrary);
* the recursive walker `findIncludes` as a fuel-indexed function: `none`
  means the fuel ran out (the C++ recursion has not returned yet), and
  `some (ok, m, tr)` means the call returned `ok` with final map `m`.
  The third component `tr` is ghost instrumentation: the chronological list
  of `(filePath, depth)` arguments of every `findIncludes` call that ran,
  used only to state the depth-map invariant of the spec. It mirrors no C++
  state and does not influence control flow.
-/

namespace Wgsl

abbrev Path : Type := String

abbrev Line : Type := List Char

abbrev DepthMap : Type := List (Path × Nat)

abbrev Trace : Type := List (Path × Nat)

abbrev FS : Type := Path → Option (List Line)

/-- The literal `include_directive_prefix` of wgslPreprocessor.cpp line 93. -/
def directiveHead : Line := "#include \"".toList

/-- The literal `"#include"` searched for by the emission filter (line 216). -/
def includeToken : Line := "#include".toList

/-- Characters strictly before the next `'"'`; `none` when no closing quote
exists on the line. Models `line.find('"', start_quote_pos)` plus
`line.substr(start_quote_pos, end_quote_pos - start_quote_pos)` (lines 97-101). -/
def extractUpToQuote : Line → Option Line
  | [] => none
  | c :: cs => if c = '"' then some [] else Option.map (fun r => c :: r) (extractUpToQuote cs)

/-- Classify one scanned line (lines 94-116 of the source):
`none` = the line does not start with `#include "`;
`some none` = it starts with the prefix but has no closing quote (malformed);
`some (some name)` = a well-formed directive including file `name`.
`line.rfind(include_directive_prefix, 0) == 0` is the starts-with test. -/
def parseLine (l : Line) : Option (Option Line) :=
  if directiveHead.isPrefixOf l then some (extractUpToQuote (l.drop directiveHead.length))
  else none

/-- `currentBaseDir / includedRelativeFileName` (line 102): path concatenation
with a separator, on the abstract path space. -/
def resolvePath (b : Path) (name : Line) : Path := b ++ "/" ++ String.mk name

/-- `removeDot` (lines 40-49): `std::filesystem::canonical`, falling back to the
unchanged path on failure. Canonicalization is the identity on the abstract
(already canonical) path space, so both branches coincide. -/
def removeDot (p : Path) : Path := p

/-- `path::parent_path()`: everything before the last separator. (For a path
with a single leading separator the C++ result keeps the root slash; only
internal consistency of the model matters, and the model applies this one
function everywhere `parent_path` appears in the source.) -/
def parentPath (p : Path) : Path :=
  String.mk (((p.toList.reverse.dropWhile (fun c => c ≠ '/')).drop 1).reverse)

/-- The absolute identity of an included name (lines 102-103). -/
def resolveInc (b : Path) (name : Line) : Path := removeDot (resolvePath b name)

/-- `activeIncludes.at(filePath)` / `find` on the association list. -/
def lookupD : DepthMap → Path → Option Nat
  | [], _ => none
  | (k, v) :: rest, q => if k = q then some v else lookupD rest q

/-- `activeIncludes.insert_or_assign(filePath, depth)` and
`activeIncludes[filePath] = depth`: update in place, or append a new entry. -/
def setD : DepthMap → Path → Nat → DepthMap
  | [], p, v => [(p, v)]
  | (k, w) :: rest, p, v => if k = p then (p, v) :: rest else (k, w) :: setD rest p v

/-- `activeIncludes.erase(filePath)` (lines 85 and 108). -/
def eraseD : DepthMap → Path → DepthMap
  | [], _ => []
  | (k, w) :: rest, p => if k = p then eraseD rest p else (k, w) :: eraseD rest p

/-- The paths recorded in the depth map. -/
def keys (m : DepthMap) : List Path := m.map Prod.fst

/-- Append the trace of an earlier recursive call in front of the trace of the
rest of the scan. -/
def appendTr (tr : Trace) : Option (Bool × DepthMap × Trace) → Option (Bool × DepthMap × Trace)
  | none => none
  | some (ok, m, tr2) => some (ok, m, tr ++ tr2)

/-- Record the `(filePath, depth)` visit event of the enclosing call. -/
def withEvent (p : Path) (depth : Nat) :
    Option (Bool × DepthMap × Trace) → Option (Bool × DepthMap × Trace)
  | none => none
  | some (ok, m, tr) => some (ok, m, (p, depth) :: tr)

/-- The `while (std::getline(inputFile, line) && nothingFoundCount < 5)` loop of
`findIncludes` (lines 89-122), parameterized by the recursive call `visit`
(which carries the remaining fuel). Per line, in source order:
a well-formed directive is resolved and visited at `depth + 1` — on failure the
current file's entry is erased and failure propagates (lines 105-110), on
success the counter resets to 0 (line 111); a malformed directive only warns,
leaving the counter unchanged (lines 113-116); any other line increments the
counter (lines 118-121). Once the counter reaches 5, the loop condition fails
(the test happens after `getline` consumes one more line, which is observably
irrelevant) and the call returns success with the map as it stands. -/
def scanStep (visit : Path → Path → DepthMap → Nat → Option (Bool × DepthMap × Trace))
    (p b : Path) : List Line → Nat → DepthMap → Nat → Option (Bool × DepthMap × Trace)
  | [], _, m, _ => some (true, m, [])
  | line :: rest, count, m, depth =>
    if count < 5 then
      match parseLine line with
      | some (some name) =>
        match visit (resolveInc b name) (parentPath (resolveInc b name)) m (depth + 1) with
        | none => none
        | some (false, m2, tr) => some (false, eraseD m2 p, tr)
        | some (true, m2, tr) => appendTr tr (scanStep visit p b rest 0 m2 depth)
      | some none => scanStep visit p b rest count m depth
      | none => scanStep visit p b rest (count + 1) m depth
    else some (true, m, [])

/-- Opening and scanning the file (lines 81-125): an unopenable file erases its
own entry and reports failure (lines 82-87); otherwise the line loop runs. -/
def readFile (fs : FS) (visit : Path → Path → DepthMap → Nat → Option (Bool × DepthMap × Trace))
    (p b : Path) (m : DepthMap) (depth : Nat) : Option (Bool × DepthMap × Trace) :=
  match fs p with
  | none => some (false, eraseD m p, [])
  | some ls => scanStep visit p b ls 0 m depth

/-- `findIncludes` (lines 66-126), fuel-indexed. Entry logic (lines 71-80):
if `filePath` has a recorded depth `dOld` and `dOld < depth`, the entry is
raised to `depth` and the call returns success immediately (the
`return true; //skip finding includes` branch); if `dOld ≥ depth` the `if` in
the `try` block falls through and the file is opened and re-scanned with the
map unchanged; if there is no entry, `at` throws, the `catch` records
`activeIncludes[filePath] = depth`, and the file is opened and scanned. -/
def findIncludes (fs : FS) : Nat → Path → Path → DepthMap → Nat → Option (Bool × DepthMap × Trace)
  | 0, _, _, _, _ => none
  | fuel + 1, p, b, m, depth =>
    match lookupD m p with
    | some dOld =>
      if dOld < depth then some (true, setD m p depth, [(p, depth)])
      else withEvent p depth (readFile fs (findIncludes fs fuel) p b m depth)
    | none => withEvent p depth (readFile fs (findIncludes fs fuel) p b (setD m p depth) depth)

/-- The descending comparison `a.first > b.first` used by `std::sort`
(lines 25-29), as the before-or-equal order of the sorted output. -/
def descR (a b : Nat × Path) : Prop := b.1 ≤ a.1

instance : DecidableRel descR := fun a b => Nat.decLe b.1 a.1

instance : IsTotal (Nat × Path) descR := ⟨fun a b => (Nat.le_total a.1 b.1).symm⟩

instance : IsTrans (Nat × Path) descR := ⟨fun _ _ _ hab hbc => Nat.le_trans hbc hab⟩

/-- `convertActiveIncludesToVector` (lines 13-38): build `(value, key)` pairs,
sort them by value in descending order, and keep the keys. -/
def convertActiveIncludesToVector (m : DepthMap) : List Path :=
  (List.insertionSort descR (m.map (fun kv => (kv.2, kv.1)))).map Prod.snd

/-- Does `pat` occur as a contiguous substring? Models
`line.find("#include") != std::string::npos` (line 216). -/
def hasSubstr (pat : Line) : Line → Bool
  | [] => pat.isEmpty
  | c :: rest => pat.isPrefixOf (c :: rest) || hasSubstr pat rest

/-- The emission line loop (lines 211-221): copy each line except those
containing `"#include"` anywhere. -/
def copyLines : List Line → List Line
  | [] => []
  | l :: rest => if hasSubstr includeToken l then copyLines rest else l :: copyLines rest

/-- One file of the emission pass (lines 201-224): an unopenable file is
logged and skipped, an opened one contributes its filtered lines. -/
def emitFile (fs : FS) (p : Path) : List Line :=
  match fs p with
  | none => []
  | some ls => copyLines ls

/-- The full emission output for a final depth map. -/
def emissionOutput (fs : FS) (m : DepthMap) : List Line :=
  ((convertActiveIncludesToVector m).map (emitFile fs)).flatten

/-- The files whose content actually reaches the output: the sorted files,
minus those that fail to reopen during emission. -/
def emittedFiles (fs : FS) (m : DepthMap) : List Path :=
  (convertActiveIncludesToVector m).filter (fun p => (fs p).isSome)

/-- `main` (lines 128-232). `argCount` is `argc`; `canonRoot` is the result of
canonicalizing the input path (lines 150-159), `none` on failure;
`outputOpens` tells whether the optional output file opens (lines 185-195).
The result is `none` when the walk runs out of fuel, otherwise
`some (exitCode, outputLines)`. A failed walk only logs (lines 174-177). -/
def mainRun (fs : FS) (canonRoot : Option Path) (outputOpens : Bool) (argCount : Nat)
    (fuel : Nat) : Option (Nat × List Line) :=
  if argCount < 2 ∨ 3 < argCount then some (1, [])
  else
    match canonRoot with
    | none => some (1, [])
    | some root =>
      match findIncludes fs fuel root (parentPath root) [] 0 with
      | none => none
      | some (_, m, _) =>
        if argCount = 3 ∧ outputOpens = false then some (1, [])
        else some (0, emissionOutput fs m)

example : parseLine "#include \"b.wgsl\"".toList = some (some "b.wgsl".toList) := by decide

example : parseLine "#include \"b.wgsl".toList = some none := by decide

example : parseLine "let x = 1;".toList = none := by decide

example : resolveInc "" "x".toList = "/x" := by decide

example : parentPath "/x" = "" := by decide

example : hasSubstr includeToken "  #include \"a\"".toList = true := by decide

example : hasSubstr includeToken "plain text".toList = false := by decide

/-! ## Association-list map lemmas -/

theorem lookupD_setD (m : DepthMap) (p : Path) (v : Nat) (q : Path) :
    lookupD (setD m p v) q = if p = q then some v else lookupD m q := by
  induction m with
  | nil => simp [setD, lookupD]
  | cons kv rest ih =>
    obtain ⟨k, w⟩ := kv
    by_cases hk : k = p
    · subst p
      by_cases hq : k = q
      · subst q
        simp [setD, lookupD]
      · simp [setD, lookupD, hq]
    · by_cases hq : k = q
      · subst q
        have hpk : ¬ p = k := fun h => hk h.symm
        simp [setD, lookupD, hk, hpk]
      · simp [setD, lookupD, hk, hq, ih]

theorem lookupD_eraseD (m : DepthMap) (p : Path) (q : Path) :
    lookupD (eraseD m p) q = if p = q then none else lookupD m q := by
  induction m with
  | nil => simp [eraseD, lookupD]
  | cons kv rest ih =>
    obtain ⟨k, w⟩ := kv
    by_cases hk : k = p
    · subst p
      by_cases hq : k = q
      · subst q
        simp [eraseD, lookupD, ih]
      · simp [eraseD, lookupD, hq, ih]
    · by_cases hq : k = q
      · subst q
        have hpk : ¬ p = k := fun h => hk h.symm
        simp [eraseD, lookupD, hk, hpk]
      · simp [eraseD, lookupD, hk, hq, ih]

theorem lookupD_eraseD_self (m : DepthMap) (p : Path) : lookupD (eraseD m p) p = none := by
  simp [lookupD_eraseD]

theorem eraseD_setD (m : DepthMap) (p : Path) (v : Nat) :
    eraseD (setD m p v) p = eraseD m p := by
  induction m with
  | nil => simp [setD, eraseD]
  | cons kv rest ih =>
    obtain ⟨k, w⟩ := kv
    by_cases hk : k = p <;> simp [setD, eraseD, hk, ih]

theorem mem_keys_iff (m : DepthMap) (q : Path) :
    q ∈ keys m ↔ ∃ v, lookupD m q = some v := by
  induction m with
  | nil => simp [keys, lookupD]
  | cons kv rest ih =>
    obtain ⟨k, w⟩ := kv
    by_cases hk : k = q
    · subst hk
      simp [keys, lookupD]
    · simp [keys, lookupD, hk, Ne.symm hk] at ih ⊢
      exact ih

theorem keys_setD_of_mem {m : DepthMap} {p : Path} (v : Nat) (h : p ∈ keys m) :
    keys (setD m p v) = keys m := by
  induction m with
  | nil => simp [keys] at h
  | cons kv rest ih =>
    obtain ⟨k, w⟩ := kv
    by_cases hk : k = p
    · subst p
      simp [setD, keys]
    · simp only [keys, List.map_cons, List.mem_cons] at h
      rcases h with h | h
      · exact absurd h.symm hk
      · have hr := ih (by simpa [keys] using h)
        simp only [setD, if_neg hk, keys, List.map_cons]
        simp only [keys] at hr
        rw [hr]

theorem keys_setD_of_not_mem {m : DepthMap} {p : Path} (v : Nat) (h : p ∉ keys m) :
    keys (setD m p v) = keys m ++ [p] := by
  induction m with
  | nil => simp [setD, keys]
  | cons kv rest ih =>
    obtain ⟨k, w⟩ := kv
    simp only [keys, List.map_cons, List.mem_cons] at h
    push_neg at h
    have hk : ¬ k = p := fun hkp => h.1 hkp.symm
    have hr := ih (by simpa [keys] using h.2)
    simp only [setD, if_neg hk, keys, List.map_cons]
    simp only [keys] at hr
    rw [hr]
    simp

theorem lookupD_of_mem_nodup {m : DepthMap} (hnd : (keys m).Nodup) {k : Path} {v : Nat}
    (h : (k, v) ∈ m) : lookupD m k = some v := by
  induction m with
  | nil => simp at h
  | cons kv rest ih =>
    obtain ⟨k0, v0⟩ := kv
    simp only [keys, List.map_cons, List.nodup_cons] at hnd
    rcases List.mem_cons.mp h with h | h
    · rw [Prod.mk.injEq] at h
      obtain ⟨rfl, rfl⟩ := h
      simp [lookupD]
    · have hk : ¬ k0 = k := by
        rintro rfl
        exact hnd.1 (List.mem_map.mpr ⟨(k0, v), h, rfl⟩)
      simp [lookupD, hk, ih hnd.2 h]

theorem mem_of_lookupD {m : DepthMap} {k : Path} {v : Nat} (h : lookupD m k = some v) :
    (k, v) ∈ m := by
  induction m with
  | nil => simp [lookupD] at h
  | cons kv rest ih =>
    obtain ⟨k0, v0⟩ := kv
    by_cases hk : k0 = k
    · subst hk
      simp [lookupD] at h
      simp [h]
    · simp [lookupD, hk] at h
      exact List.mem_cons_of_mem _ (ih h)

/-! ## Pairwise helper -/

theorem pairwise_imp_mem {α : Type} {R S : α → α → Prop} {l : List α}
    (h : ∀ a b, a ∈ l → b ∈ l → R a b → S a b) (hp : l.Pairwise R) : l.Pairwise S := by
  induction l with
  | nil => exact List.Pairwise.nil
  | cons a rest ih =>
    rcases List.pairwise_cons.mp hp with ⟨ha, hrest⟩
    refine List.Pairwise.cons (fun b hb => ?_) ?_
    · exact h a b (List.mem_cons_self a rest) (List.mem_cons_of_mem _ hb) (ha b hb)
    · exact ih (fun x y hx hy => h x y (List.mem_cons_of_mem _ hx) (List.mem_cons_of_mem _ hy))
        hrest

/-- C6: the sequence of files emitted is the depth map's entries sorted by
recorded depth in descending order: the emitted sequence is a permutation of
the map's keys, and for every two emitted files the later one's recorded depth
is less than or equal to the earlier one's (so a strictly deeper file is always
emitted before a shallower one). -/
theorem c6_emission_order (m : DepthMap) (hnd : (keys m).Nodup) :
    (convertActiveIncludesToVector m).Perm (keys m) ∧
      (convertActiveIncludesToVector m).Pairwise
        (fun p q => ∀ dp dq, lookupD m p = some dp → lookupD m q = some dq → dq ≤ dp) := by
  have hmap : (m.map (fun kv => (kv.2, kv.1))).map Prod.snd = keys m := by
    rw [List.map_map]
    exact List.map_congr_left (fun a _ => rfl)
  constructor
  · have hp := (List.perm_insertionSort descR (m.map (fun kv => (kv.2, kv.1)))).map Prod.snd
    rw [hmap] at hp
    exact hp
  · have hsorted : (List.insertionSort descR (m.map (fun kv => (kv.2, kv.1)))).Pairwise descR :=
      List.sorted_insertionSort descR _
    rw [convertActiveIncludesToVector, List.pairwise_map]
    refine pairwise_imp_mem (fun a b ha hb hr => ?_) hsorted
    have hmem : ∀ c : Nat × Path,
        c ∈ List.insertionSort descR (m.map (fun kv => (kv.2, kv.1))) →
        lookupD m c.2 = some c.1 := by
      intro c hc
      have : c ∈ m.map (fun kv => (kv.2, kv.1)) :=
        (List.perm_insertionSort descR _).mem_iff.mp hc
      rcases List.mem_map.mp this with ⟨kv, hkv, rfl⟩
      exact lookupD_of_mem_nodup hnd hkv
    intro dp dq hdp hdq
    rw [hmem a ha] at hdp
    rw [hmem b hb] at hdq
    cases hdp
    cases hdq
    exact hr

/-! ## The emission filter (claim C7) -/

theorem mem_copyLines {ls : List Line} {l : Line} :
    l ∈ copyLines ls ↔ l ∈ ls ∧ hasSubstr includeToken l = false := by
  induction ls with
  | nil => simp [copyLines]
  | cons a rest ih =>
    by_cases h : hasSubstr includeToken a = true
    · rw [copyLines, if_pos h, ih]
      constructor
      · rintro ⟨hl, hf⟩
        exact ⟨List.mem_cons_of_mem _ hl, hf⟩
      · rintro ⟨hl, hf⟩
        rcases List.mem_cons.mp hl with rfl | hl
        · rw [h] at hf
          cases hf
        · exact ⟨hl, hf⟩
    · rw [copyLines, if_neg h]
      simp only [List.mem_cons, ih]
      constructor
      · rintro (rfl | ⟨hl, hf⟩)
        · exact ⟨Or.inl rfl, by simpa using h⟩
        · exact ⟨Or.inr hl, hf⟩
      · rintro ⟨rfl | hl, hf⟩
        · exact Or.inl rfl
        · exact Or.inr ⟨hl, hf⟩

theorem hasSubstr_iff {pat l : Line} : hasSubstr pat l = true ↔ pat <:+: l := by
  induction l with
  | nil =>
    simp only [hasSubstr, List.isEmpty_iff, List.infix_nil]
  | cons c rest ih =>
    rw [hasSubstr, Bool.or_eq_true, ih, List.isPrefixOf_iff_prefix, List.infix_cons_iff]

/-- C7: during the emission pass a line reaches the output exactly when it is a
line of one of the emitted files and does not contain the substring
`#include` anywhere in it; every line containing that substring anywhere is
omitted, whether or not it is a syntactically valid directive. -/
theorem c7_emission_filter (fs : FS) (m : DepthMap) (l : Line) :
    l ∈ emissionOutput fs m ↔
      (∃ p ∈ convertActiveIncludesToVector m, ∃ ls, fs p = some ls ∧ l ∈ ls) ∧
        ¬ includeToken <:+: l := by
  rw [← hasSubstr_iff, Bool.not_eq_true]
  unfold emissionOutput
  rw [List.mem_flatten]
  constructor
  · rintro ⟨seg, hseg, hl⟩
    rcases List.mem_map.mp hseg with ⟨p, hp, rfl⟩
    unfold emitFile at hl
    rcases hfs : fs p with _ | ls
    · rw [hfs] at hl
      simp at hl
    · rw [hfs] at hl
      rcases mem_copyLines.mp hl with ⟨hmem, hsub⟩
      exact ⟨⟨p, hp, ls, hfs, hmem⟩, hsub⟩
  · rintro ⟨⟨p, hp, ls, hfs, hmem⟩, hsub⟩
    refine ⟨emitFile fs p, List.mem_map.mpr ⟨p, hp, rfl⟩, ?_⟩
    unfold emitFile
    rw [hfs]
    exact mem_copyLines.mpr ⟨hmem, hsub⟩

/-- C10: a scanned line that begins with `#include "` but has no closing quote
leaves the consecutive no-include counter unchanged — neither incremented nor
reset — and consequently an unbounded run of consecutive malformed directive
lines never stops the scan of the file: the scan proceeds into the remaining
lines with the same counter value. -/
theorem c10_malformed_counter :
    (∀ visit p b line rest count m d, count < 5 →
        directiveHead.isPrefixOf line = true →
        extractUpToQuote (line.drop directiveHead.length) = none →
        scanStep visit p b (line :: rest) count m d = scanStep visit p b rest count m d) ∧
      (∀ visit p b line rest count m d n, count < 5 →
        directiveHead.isPrefixOf line = true →
        extractUpToQuote (line.drop directiveHead.length) = none →
        scanStep visit p b (List.replicate n line ++ rest) count m d =
          scanStep visit p b rest count m d) := by
  have base : ∀ visit p b line rest count m d, count < 5 →
      directiveHead.isPrefixOf line = true →
      extractUpToQuote (line.drop directiveHead.length) = none →
      scanStep visit p b (line :: rest) count m d = scanStep visit p b rest count m d := by
    intro visit p b line rest count m d hc hpre hquote
    rw [scanStep, if_pos hc]
    unfold parseLine
    rw [hpre]
    simp only [if_true, hquote]
  refine ⟨base, fun visit p b line rest count m d n hc hpre hquote => ?_⟩
  induction n with
  | zero => simp
  | succ k ih =>
    rw [List.replicate_succ, List.cons_append, base visit p b line _ count m d hc hpre hquote]
    exact ih

/-! ## Branch equations for the walker -/

theorem scanStep_nil (visit : Path → Path → DepthMap → Nat → Option (Bool × DepthMap × Trace))
    (p b : Path) (count : Nat) (m : DepthMap) (d : Nat) :
    scanStep visit p b [] count m d = some (true, m, []) := rfl

theorem scanStep_stop (visit : Path → Path → DepthMap → Nat → Option (Bool × DepthMap × Trace))
    (p b : Path) (lines : List Line) (count : Nat) (m : DepthMap) (d : Nat)
    (hc : 5 ≤ count) : scanStep visit p b lines count m d = some (true, m, []) := by
  cases lines with
  | nil => rfl
  | cons line rest => rw [scanStep, if_neg (by omega)]

theorem scanStep_cons_plain
    (visit : Path → Path → DepthMap → Nat → Option (Bool × DepthMap × Trace))
    (p b : Path) (line : Line) (rest : List Line) (count : Nat) (m : DepthMap) (d : Nat)
    (hc : count < 5) (hp : parseLine line = none) :
    scanStep visit p b (line :: rest) count m d = scanStep visit p b rest (count + 1) m d := by
  rw [scanStep, if_pos hc, hp]

theorem scanStep_cons_malformed
    (visit : Path → Path → DepthMap → Nat → Option (Bool × DepthMap × Trace))
    (p b : Path) (line : Line) (rest : List Line) (count : Nat) (m : DepthMap) (d : Nat)
    (hc : count < 5) (hp : parseLine line = some none) :
    scanStep visit p b (line :: rest) count m d = scanStep visit p b rest count m d := by
  rw [scanStep, if_pos hc, hp]

theorem scanStep_cons_dir_none
    (visit : Path → Path → DepthMap → Nat → Option (Bool × DepthMap × Trace))
    (p b : Path) (line : Line) (rest : List Line) (count : Nat) (m : DepthMap) (d : Nat)
    (name : Line) (hc : count < 5) (hp : parseLine line = some (some name))
    (hv : visit (resolveInc b name) (parentPath (resolveInc b name)) m (d + 1) = none) :
    scanStep visit p b (line :: rest) count m d = none := by
  rw [scanStep, if_pos hc]
  simp only [hp, hv]

theorem scanStep_cons_dir_false
    (visit : Path → Path → DepthMap → Nat → Option (Bool × DepthMap × Trace))
    (p b : Path) (line : Line) (rest : List Line) (count : Nat) (m : DepthMap) (d : Nat)
    (name : Line) (m2 : DepthMap) (tr : Trace)
    (hc : count < 5) (hp : parseLine line = some (some name))
    (hv : visit (resolveInc b name) (parentPath (resolveInc b name)) m (d + 1) =
      some (false, m2, tr)) :
    scanStep visit p b (line :: rest) count m d = some (false, eraseD m2 p, tr) := by
  rw [scanStep, if_pos hc]
  simp only [hp, hv]

theorem scanStep_cons_dir_true
    (visit : Path → Path → DepthMap → Nat → Option (Bool × DepthMap × Trace))
    (p b : Path) (line : Line) (rest : List Line) (count : Nat) (m : DepthMap) (d : Nat)
    (name : Line) (m2 : DepthMap) (tr : Trace)
    (hc : count < 5) (hp : parseLine line = some (some name))
    (hv : visit (resolveInc b name) (parentPath (resolveInc b name)) m (d + 1) =
      some (true, m2, tr)) :
    scanStep visit p b (line :: rest) count m d = appendTr tr (scanStep visit p b rest 0 m2 d) := by
  rw [scanStep, if_pos hc]
  simp only [hp, hv]

theorem readFile_closed (fs : FS)
    (visit : Path → Path → DepthMap → Nat → Option (Bool × DepthMap × Trace))
    (p b : Path) (m : DepthMap) (d : Nat) (hfs : fs p = none) :
    readFile fs visit p b m d = some (false, eraseD m p, []) := by
  rw [readFile, hfs]

theorem readFile_open (fs : FS)
    (visit : Path → Path → DepthMap → Nat → Option (Bool × DepthMap × Trace))
    (p b : Path) (m : DepthMap) (d : Nat) (ls : List Line) (hfs : fs p = some ls) :
    readFile fs visit p b m d = scanStep visit p b ls 0 m d := by
  rw [readFile, hfs]

theorem findIncludes_zero (fs : FS) (p b : Path) (m : DepthMap) (d : Nat) :
    findIncludes fs 0 p b m d = none := rfl

theorem findIncludes_update (fs : FS) (fuel : Nat) (p b : Path) (m : DepthMap) (d dOld : Nat)
    (hl : lookupD m p = some dOld) (hlt : dOld < d) :
    findIncludes fs (fuel + 1) p b m d = some (true, setD m p d, [(p, d)]) := by
  rw [findIncludes]
  simp only [hl]
  rw [if_pos hlt]

theorem findIncludes_rescan (fs : FS) (fuel : Nat) (p b : Path) (m : DepthMap) (d dOld : Nat)
    (hl : lookupD m p = some dOld) (hge : ¬ dOld < d) :
    findIncludes fs (fuel + 1) p b m d =
      withEvent p d (readFile fs (findIncludes fs fuel) p b m d) := by
  rw [findIncludes]
  simp only [hl]
  rw [if_neg hge]

theorem findIncludes_new (fs : FS) (fuel : Nat) (p b : Path) (m : DepthMap) (d : Nat)
    (hl : lookupD m p = none) :
    findIncludes fs (fuel + 1) p b m d =
      withEvent p d (readFile fs (findIncludes fs fuel) p b (setD m p d) d) := by
  rw [findIncludes]
  simp only [hl]

/-! ## Inversion lemmas for the walker -/

theorem withEvent_eq_some {p : Path} {d : Nat} {r : Option (Bool × DepthMap × Trace)}
    {ok : Bool} {m : DepthMap} {tr : Trace} :
    withEvent p d r = some (ok, m, tr) ↔
      ∃ tr0, r = some (ok, m, tr0) ∧ tr = (p, d) :: tr0 := by
  cases r with
  | none => simp [withEvent]
  | some x =>
    obtain ⟨ok2, m2, tr2⟩ := x
    simp only [withEvent, Option.some.injEq, Prod.mk.injEq]
    constructor
    · rintro ⟨rfl, rfl, rfl⟩
      exact ⟨tr2, ⟨rfl, rfl, rfl⟩, rfl⟩
    · rintro ⟨tr0, ⟨rfl, rfl, rfl⟩, rfl⟩
      exact ⟨rfl, rfl, rfl⟩

theorem appendTr_eq_some {tr : Trace} {r : Option (Bool × DepthMap × Trace)}
    {ok : Bool} {m : DepthMap} {tr2 : Trace} :
    appendTr tr r = some (ok, m, tr2) ↔
      ∃ tr3, r = some (ok, m, tr3) ∧ tr2 = tr ++ tr3 := by
  cases r with
  | none => simp [appendTr]
  | some x =>
    obtain ⟨ok2, m2, tr4⟩ := x
    simp only [appendTr, Option.some.injEq, Prod.mk.injEq]
    constructor
    · rintro ⟨rfl, rfl, rfl⟩
      exact ⟨tr4, ⟨rfl, rfl, rfl⟩, rfl⟩
    · rintro ⟨tr0, ⟨rfl, rfl, rfl⟩, rfl⟩
      exact ⟨rfl, rfl, rfl⟩

/-- Every failing return of the scan loop has erased the scanned file's own
entry (line 108 of the source). -/
theorem scanStep_false_shape
    (visit : Path → Path → DepthMap → Nat → Option (Bool × DepthMap × Trace)) (p b : Path) :
    ∀ (lines : List Line) (count : Nat) (m : DepthMap) (d : Nat) (m2 : DepthMap) (tr : Trace),
      scanStep visit p b lines count m d = some (false, m2, tr) → ∃ m3, m2 = eraseD m3 p := by
  intro lines
  induction lines with
  | nil =>
    intro count m d m2 tr h
    rw [scanStep_nil] at h
    simp at h
  | cons line rest ih =>
    intro count m d m2 tr h
    by_cases hc : count < 5
    · cases hp : parseLine line with
      | none =>
        rw [scanStep_cons_plain visit p b line rest count m d hc hp] at h
        exact ih _ _ _ _ _ h
      | some o =>
        cases o with
        | none =>
          rw [scanStep_cons_malformed visit p b line rest count m d hc hp] at h
          exact ih _ _ _ _ _ h
        | some name =>
          cases hv : visit (resolveInc b name) (parentPath (resolveInc b name)) m (d + 1) with
          | none =>
            rw [scanStep_cons_dir_none visit p b line rest count m d name hc hp hv] at h
            cases h
          | some r =>
            obtain ⟨ok, m4, tr4⟩ := r
            cases ok with
            | false =>
              rw [scanStep_cons_dir_false visit p b line rest count m d name m4 tr4 hc hp hv]
                at h
              simp only [Option.some.injEq, Prod.mk.injEq] at h
              exact ⟨m4, h.2.1.symm⟩
            | true =>
              rw [scanStep_cons_dir_true visit p b line rest count m d name m4 tr4 hc hp hv]
                at h
              rcases appendTr_eq_some.mp h with ⟨tr3, hs, rfl⟩
              exact ih _ _ _ _ _ hs
    · rw [scanStep_stop visit p b _ count m d (by omega)] at h
      simp at h

/-- C1 (amended): the revisit policy the code implements. If `file` already has
a recorded depth `dOld` and `dOld < depth`, the recorded depth is raised to
`depth` and the call returns success immediately without re-reading the file;
if `dOld ≥ depth`, the call records nothing new at entry and the file is
re-opened and re-scanned for its includes (in particular, if the file cannot be
opened the call fails and erases the entry). -/
theorem c1_revisit_policy (fs : FS) (fuel : Nat) (p b : Path) (m : DepthMap) (d dOld : Nat)
    (h : lookupD m p = some dOld) :
    (dOld < d → findIncludes fs (fuel + 1) p b m d = some (true, setD m p d, [(p, d)])) ∧
      (¬ dOld < d →
        findIncludes fs (fuel + 1) p b m d =
          withEvent p d (readFile fs (findIncludes fs fuel) p b m d)) ∧
      (¬ dOld < d → fs p = none →
        findIncludes fs (fuel + 1) p b m d = some (false, eraseD m p, [(p, d)])) := by
  refine ⟨fun hlt => findIncludes_update fs fuel p b m d dOld h hlt,
    fun hge => findIncludes_rescan fs fuel p b m d dOld h hge, fun hge hopen => ?_⟩
  rw [findIncludes_rescan fs fuel p b m d dOld h hge, readFile_closed fs _ p b m d hopen]
  rfl

theorem c1_witness :
    findIncludes (fun _ => none) 1 "/x" "" [("/x", 0)] 3 =
      some (true, [("/x", 3)], [("/x", 3)]) := by
  have h := (c1_revisit_policy (fun _ => none) 0 "/x" "" [("/x", 0)] 3 0 (by decide)).1
    (by decide)
  rw [h]
  decide

/-- The revisit policy as the specification states it: a revisit at depth no
greater than the recorded depth records nothing new and returns success
immediately without re-reading the file. -/
def c1Claim : Prop :=
  ∀ (fs : FS) (fuel : Nat) (p b : Path) (m : DepthMap) (d dOld : Nat),
    lookupD m p = some dOld → d ≤ dOld →
    ∃ tr, findIncludes fs (fuel + 1) p b m d = some (true, m, tr)

/-- C1 counterexample: for an unopenable file `"/x"` recorded at depth 5 and
revisited at depth 3, the code does not return success with the map unchanged
(it re-reads the file, fails to open it, erases the entry and fails),
refuting the claimed policy. -/
theorem c1_cex : ¬ c1Claim := by
  intro h
  obtain ⟨tr, htr⟩ := h (fun _ => none) 0 "/x" "" [("/x", 5)] 3 5 (by decide) (by decide)
  have heval : findIncludes (fun _ => none) 1 "/x" "" [("/x", 5)] 3 =
      some (false, [], [("/x", 3)]) := by decide
  rw [heval] at htr
  simp at htr

/-- C8: whenever a file cannot be opened during the discovery walk, that call
erases the file's own depth-map entry and returns failure (whether the entry
was created by this call or pre-existing), and every call of the walk that
returns failure leaves the depth map without its own file's entry — so each
enclosing recursive call erases its own entry before propagating the failure
upward. -/
theorem c8_failure_unwinding :
    (∀ (fs : FS) (fuel : Nat) (p b : Path) (m : DepthMap) (d : Nat) (m2 : DepthMap) (tr : Trace),
        findIncludes fs fuel p b m d = some (false, m2, tr) → lookupD m2 p = none) ∧
      (∀ (fs : FS) (fuel : Nat) (p b : Path) (m : DepthMap) (d : Nat),
        fs p = none → lookupD m p = none →
        findIncludes fs (fuel + 1) p b m d = some (false, eraseD m p, [(p, d)])) ∧
      (∀ (fs : FS) (fuel : Nat) (p b : Path) (m : DepthMap) (d dOld : Nat),
        fs p = none → lookupD m p = some dOld → d ≤ dOld →
        findIncludes fs (fuel + 1) p b m d = some (false, eraseD m p, [(p, d)])) := by
  refine ⟨?_, ?_, ?_⟩
  · intro fs fuel p b m d m2 tr h
    cases fuel with
    | zero => simp [findIncludes] at h
    | succ g =>
      cases hl : lookupD m p with
      | some dOld =>
        by_cases hlt : dOld < d
        · rw [findIncludes_update fs g p b m d dOld hl hlt] at h
          simp at h
        · rw [findIncludes_rescan fs g p b m d dOld hl hlt] at h
          rcases withEvent_eq_some.mp h with ⟨tr0, hr, rfl⟩
          cases hfs : fs p with
          | none =>
            rw [readFile_closed fs _ p b m d hfs] at hr
            simp only [Option.some.injEq, Prod.mk.injEq] at hr
            rw [← hr.2.1, lookupD_eraseD_self]
          | some ls =>
            rw [readFile_open fs _ p b m d ls hfs] at hr
            rcases scanStep_false_shape _ p b ls 0 m d m2 tr0 hr with ⟨m3, rfl⟩
            exact lookupD_eraseD_self m3 p
      | none =>
        rw [findIncludes_new fs g p b m d hl] at h
        rcases withEvent_eq_some.mp h with ⟨tr0, hr, rfl⟩
        cases hfs : fs p with
        | none =>
          rw [readFile_closed fs _ p b _ d hfs] at hr
          simp only [Option.some.injEq, Prod.mk.injEq] at hr
          rw [← hr.2.1, lookupD_eraseD_self]
        | some ls =>
          rw [readFile_open fs _ p b _ d ls hfs] at hr
          rcases scanStep_false_shape _ p b ls 0 (setD m p d) d m2 tr0 hr with ⟨m3, rfl⟩
          exact lookupD_eraseD_self m3 p
  · intro fs fuel p b m d hopen hl
    rw [findIncludes_new fs fuel p b m d hl, readFile_closed fs _ p b _ d hopen,
      eraseD_setD]
    rfl
  · intro fs fuel p b m d dOld hopen hl hle
    rw [findIncludes_rescan fs fuel p b m d dOld hl (by omega),
      readFile_closed fs _ p b m d hopen]
    rfl

theorem c8_witness :
    findIncludes (fun _ => none) 3 "/a" "" [("/a", 2), ("/c", 7)] 0 =
      some (false, [("/c", 7)], [("/a", 0)]) := by
  have h := c8_failure_unwinding.2.2 (fun _ => none) 2 "/a" "" [("/a", 2), ("/c", 7)] 0 2
    rfl (by decide) (by decide)
  rw [h]
  decide

/-- C9: the discovery walk's success or failure does not influence the exit
code: whenever the walk completes (with either result), a run with a correct
argument count, a canonicalizable root and an openable output exits with code 0
and still emits from whatever depth map the walk left behind; and an exit code
of 1 occurs exactly for a wrong argument count, a root canonicalization
failure, or an unopenable output file. -/
theorem c9_exit_codes (fs : FS) (cr : Option Path) (oo : Bool) (ac fuel : Nat) :
    (∀ (root : Path) (m : DepthMap) (tr : Trace) (ok : Bool),
        cr = some root →
        findIncludes fs fuel root (parentPath root) [] 0 = some (ok, m, tr) →
        2 ≤ ac → ac ≤ 3 → (ac = 3 → oo = true) →
        mainRun fs cr oo ac fuel = some (0, emissionOutput fs m)) ∧
      (∀ (c : Nat) (out : List Line),
        mainRun fs cr oo ac fuel = some (c, out) →
        (c = 1 ↔ ac < 2 ∨ 3 < ac ∨ cr = none ∨ (ac = 3 ∧ oo = false))) := by
  constructor
  · rintro root m tr ok rfl hwalk h2 h3 hoo
    have hnot : ¬ (ac = 3 ∧ oo = false) := by
      rintro ⟨hac, hfalse⟩
      rw [hoo hac] at hfalse
      cases hfalse
    rw [mainRun, if_neg (by omega)]
    simp only [hwalk]
    rw [if_neg hnot]
  · intro c out h
    by_cases hbad : ac < 2 ∨ 3 < ac
    · have heq : mainRun fs cr oo ac fuel = some (1, []) := by
        rw [mainRun.eq_def, if_pos hbad]
      rw [heq] at h
      simp only [Option.some.injEq, Prod.mk.injEq] at h
      constructor
      · intro _
        rcases hbad with hb | hb
        · exact Or.inl hb
        · exact Or.inr (Or.inl hb)
      · intro _
        exact h.1.symm
    · push_neg at hbad
      cases cr with
      | none =>
        have heq : mainRun fs none oo ac fuel = some (1, []) := by
          rw [mainRun, if_neg (by omega)]
        rw [heq] at h
        simp only [Option.some.injEq, Prod.mk.injEq] at h
        constructor
        · intro _
          exact Or.inr (Or.inr (Or.inl rfl))
        · intro _
          exact h.1.symm
      | some root =>
        cases hwalk : findIncludes fs fuel root (parentPath root) [] 0 with
        | none =>
          have heq : mainRun fs (some root) oo ac fuel = none := by
            rw [mainRun, if_neg (by omega)]
            simp only [hwalk]
          rw [heq] at h
          cases h
        | some r =>
          obtain ⟨ok, m, tr⟩ := r
          by_cases hout : ac = 3 ∧ oo = false
          · have heq : mainRun fs (some root) oo ac fuel = some (1, []) := by
              rw [mainRun, if_neg (by omega)]
              simp only [hwalk]
              rw [if_pos hout]
            rw [heq] at h
            simp only [Option.some.injEq, Prod.mk.injEq] at h
            constructor
            · intro _
              exact Or.inr (Or.inr (Or.inr hout))
            · intro _
              exact h.1.symm
          · have heq : mainRun fs (some root) oo ac fuel = some (0, emissionOutput fs m) := by
              rw [mainRun, if_neg (by omega)]
              simp only [hwalk]
              rw [if_neg hout]
            rw [heq] at h
            simp only [Option.some.injEq, Prod.mk.injEq] at h
            constructor
            · intro hc
              rw [← h.1] at hc
              cases hc
            · rintro (hb | hb | hb | hb)
              · omega
              · omega
              · cases hb
              · exact absurd hb hout

theorem c9_witness :
    mainRun (fun _ => none) (some "/r") true 2 1 = some (0, emissionOutput (fun _ => none) []) :=
  (c9_exit_codes (fun _ => none) (some "/r") true 2 1).1 "/r" [] [("/r", 0)] false rfl
    (by decide) (by decide) (by decide) (fun h => by cases h)

theorem c10_witness :
    scanStep (fun _ _ _ _ => none) "/r" "" (List.replicate 7 ("#include \"x".toList) ++ []) 0 [] 0 =
      scanStep (fun _ _ _ _ => none) "/r" "" [] 0 [] 0 :=
  c10_malformed_counter.2 (fun _ _ _ _ => none) "/r" "" ("#include \"x".toList) [] 0 [] 0 7
    (by decide) (by decide) (by decide)

/-! ## Claim C2: a self-including file makes the walker recurse forever -/

/-- The single line of the self-including test file. -/
def incSelf : Line := "#include \"x\"".toList

/-- A file system with one file `"/x"` that includes itself twice; every open
succeeds for `"/x"`. -/
def fsSelf : FS := fun p => if p = "/x" then some [incSelf, incSelf] else none

theorem parse_incSelf : parseLine incSelf = some (some "x".toList) := by decide

theorem resolve_incSelf : resolveInc "" ("x".toList) = "/x" := by decide

theorem parent_slash_x : parentPath "/x" = "" := by decide

/-- Re-scanning `"/x"` at the depth currently recorded for it never returns:
line one raises the recorded depth and returns, line two re-enters the scan one
level deeper, for ever. -/
theorem fsSelf_scan_none :
    ∀ (g d : Nat),
      scanStep (findIncludes fsSelf g) "/x" "" [incSelf, incSelf] 0 [("/x", d)] d = none := by
  intro g
  induction g with
  | zero =>
    intro d
    refine scanStep_cons_dir_none (findIncludes fsSelf 0) "/x" "" incSelf [incSelf] 0
      [("/x", d)] d ("x".toList) (by decide) parse_incSelf ?_
    rw [findIncludes_zero]
  | succ g ih =>
    intro d
    have h1 : findIncludes fsSelf (g + 1) (resolveInc "" ("x".toList))
        (parentPath (resolveInc "" ("x".toList))) [("/x", d)] (d + 1) =
        some (true, [("/x", d + 1)], [("/x", d + 1)]) := by
      rw [resolve_incSelf, parent_slash_x]
      rw [findIncludes_update fsSelf g "/x" "" [("/x", d)] (d + 1) d (by simp [lookupD])
        (by omega)]
      simp [setD]
    rw [scanStep_cons_dir_true (findIncludes fsSelf (g + 1)) "/x" "" incSelf [incSelf] 0
      [("/x", d)] d ("x".toList) [("/x", d + 1)] [("/x", d + 1)] (by decide) parse_incSelf h1]
    have h2 : findIncludes fsSelf (g + 1) (resolveInc "" ("x".toList))
        (parentPath (resolveInc "" ("x".toList))) [("/x", d + 1)] (d + 1) = none := by
      rw [resolve_incSelf, parent_slash_x]
      rw [findIncludes_rescan fsSelf g "/x" "" [("/x", d + 1)] (d + 1) (d + 1)
        (by simp [lookupD]) (by omega)]
      rw [readFile_open fsSelf _ "/x" "" [("/x", d + 1)] (d + 1) [incSelf, incSelf] (by decide)]
      rw [ih (d + 1)]
      rfl
    rw [scanStep_cons_dir_none (findIncludes fsSelf (g + 1)) "/x" "" incSelf [] 0
      [("/x", d + 1)] d ("x".toList) (by decide) parse_incSelf h2]
    rfl

/-- C2: the traversal does not terminate on every cyclic include graph. For the
file `"/x"` whose two lines both read `#include "x"` (a file that directly
includes itself, with all includes inside the scan window and every open
succeeding), the walker never returns: for every amount of fuel the fueled
embedding is still running, i.e. the C++ recursion is unbounded and the process
dies of stack exhaustion instead of terminating. -/
theorem c2_nontermination : ∀ fuel : Nat, findIncludes fsSelf fuel "/x" "" [] 0 = none := by
  intro fuel
  cases fuel with
  | zero => rfl
  | succ g =>
    rw [findIncludes_new fsSelf g "/x" "" [] 0 rfl]
    rw [readFile_open fsSelf _ "/x" "" (setD [] "/x" 0) 0 [incSelf, incSelf] (by decide)]
    have hset : setD ([] : DepthMap) "/x" 0 = [("/x", 0)] := rfl
    rw [hset, fsSelf_scan_none g 0]
    rfl

/-! ## Claim C5: the early-stop heuristic -/

theorem parseLine_not_head {l : Line} (h : directiveHead.isPrefixOf l = false) :
    parseLine l = none := by
  simp [parseLine, h]

/-- A run of lines that do not begin with the directive head drives the counter
to the cutoff: once `count + pre.length` reaches 5, the scan returns without
looking at anything beyond the cutoff point. -/
theorem scanStep_skip_plain :
    ∀ (pre : List Line) (visit : Path → Path → DepthMap → Nat → Option (Bool × DepthMap × Trace))
      (p b : Path) (rest : List Line) (count : Nat) (m : DepthMap) (d : Nat),
      5 ≤ count + pre.length → (∀ l ∈ pre, directiveHead.isPrefixOf l = false) →
      scanStep visit p b (pre ++ rest) count m d = some (true, m, []) := by
  intro pre
  induction pre with
  | nil =>
    intro visit p b rest count m d h hall
    exact scanStep_stop visit p b rest count m d (by simpa using h)
  | cons l pre ih =>
    intro visit p b rest count m d h hall
    by_cases hc : count < 5
    · rw [List.cons_append, scanStep_cons_plain visit p b l (pre ++ rest) count m d hc
        (parseLine_not_head (hall l (List.mem_cons_self l pre)))]
      refine ih visit p b rest (count + 1) m d ?_ (fun x hx => hall x (List.mem_cons_of_mem l hx))
      simp only [List.length_cons] at h
      omega
    · exact scanStep_stop visit p b _ count m d (by omega)

/-- C5 (amended): line scanning stops once 5 consecutive lines have been read
that do not begin with the directive head `#include "` (malformed directive
lines, which begin with the head but lack a closing quote, leave the counter
untouched); the counter resets to 0 on every successful include match; and for
a file whose first include directive comes after 6 leading lines that do not
begin with the directive head, that directive is never discovered — the walk
ends with only the root in the depth map — and the included file is absent from
the output. -/
theorem c5_scan_window :
    (∀ (visit : Path → Path → DepthMap → Nat → Option (Bool × DepthMap × Trace))
        (p b : Path) (lines : List Line) (count : Nat) (m : DepthMap) (d : Nat), 5 ≤ count →
        scanStep visit p b lines count m d = some (true, m, [])) ∧
      (∀ (visit : Path → Path → DepthMap → Nat → Option (Bool × DepthMap × Trace))
          (p b : Path) (line : Line) (rest : List Line) (count : Nat) (m : DepthMap) (d : Nat)
          (name : Line) (m2 : DepthMap) (tr : Trace), count < 5 →
          parseLine line = some (some name) →
          visit (resolveInc b name) (parentPath (resolveInc b name)) m (d + 1) =
            some (true, m2, tr) →
          scanStep visit p b (line :: rest) count m d =
            appendTr tr (scanStep visit p b rest 0 m2 d)) ∧
      (∀ (fs : FS) (fuel : Nat) (root b : Path) (pre rest : List Line),
          pre.length = 6 → (∀ l ∈ pre, directiveHead.isPrefixOf l = false) →
          fs root = some (pre ++ rest) →
          findIncludes fs (fuel + 1) root b [] 0 = some (true, [(root, 0)], [(root, 0)]) ∧
            ∀ q, q ≠ root → q ∉ emittedFiles fs [(root, 0)]) := by
  refine ⟨?_, ?_, ?_⟩
  · intro visit p b lines count m d h
    exact scanStep_stop visit p b lines count m d h
  · intro visit p b line rest count m d name m2 tr hc hp hv
    exact scanStep_cons_dir_true visit p b line rest count m d name m2 tr hc hp hv
  · intro fs fuel root b pre rest hlen hall hfs
    constructor
    · rw [findIncludes_new fs fuel root b [] 0 rfl]
      rw [readFile_open fs _ root b (setD [] root 0) 0 (pre ++ rest) hfs]
      have hset : setD ([] : DepthMap) root 0 = [(root, 0)] := rfl
      rw [hset, scanStep_skip_plain pre _ root b rest 0 [(root, 0)] 0 (by omega) hall]
      rfl
    · intro q hq hmem
      have hconv : convertActiveIncludesToVector [(root, 0)] = [root] := rfl
      unfold emittedFiles at hmem
      rw [hconv] at hmem
      rcases List.mem_filter.mp hmem with ⟨hmem2, -⟩
      exact hq (List.mem_singleton.mp hmem2)

/-- Input for the C5 witness: the root's first include comes after 6 plain
lines. -/
def fsC5w : FS := fun p =>
  if p = "/r" then some (List.replicate 6 ("body".toList) ++ ["#include \"b\"".toList])
  else none

theorem c5_witness :
    findIncludes fsC5w 1 "/r" "" [] 0 = some (true, [("/r", 0)], [("/r", 0)]) :=
  (c5_scan_window.2.2 fsC5w 0 "/r" "" (List.replicate 6 ("body".toList))
    ["#include \"b\"".toList] (by decide) (by decide) (by decide)).1

/-- Does the line contain a successful include-directive match? -/
def lineMatchesInclude (l : Line) : Bool :=
  match parseLine l with
  | some (some _) => true
  | _ => false

/-- The early-stop heuristic as the specification states it: once 5 consecutive
lines have been read without a successful include-directive match, scanning of
the file stops, so a walk from an empty map discovers nothing beyond the root. -/
def c5Claim : Prop :=
  ∀ (fs : FS) (root b : Path) (fuel : Nat) (pre rest : List Line) (m : DepthMap) (tr : Trace),
    pre.length = 5 → (∀ l ∈ pre, lineMatchesInclude l = false) →
    fs root = some (pre ++ rest) →
    findIncludes fs fuel root b [] 0 = some (true, m, tr) →
    keys m = [root]

/-- Input for the C5 counterexample: five consecutive malformed directive lines
(no successful match) followed by a real directive. -/
def fsC5cex : FS := fun p =>
  if p = "/r" then
    some (List.replicate 5 ("#include \"b".toList) ++ ["#include \"b\"".toList])
  else if p = "/b" then some ["hello".toList] else none

/-- C5 counterexample: after 5 consecutive lines without a successful
include-directive match (all malformed), the scan does not stop — the directive
on line 6 is still discovered and `"/b"` enters the depth map — refuting the
claim that 5 consecutive matchless lines end the scan. -/
theorem c5_cex : ¬ c5Claim := by
  intro h
  have hres := h fsC5cex "/r" "" 2
    (List.replicate 5 ("#include \"b".toList)) ["#include \"b\"".toList]
    [("/r", 0), ("/b", 1)] [("/r", 0), ("/b", 1)]
    (by decide) (by decide) (by decide) (by decide)
  exact absurd hres (by decide)

/-! ## Claim C4: the depth map records the largest depth encountered -/

/-- Maximum of two optional depths (`none` = no value yet). -/
def omax : Option Nat → Option Nat → Option Nat
  | none, y => y
  | some a, none => some a
  | some a, some c => some (max a c)

theorem omax_none_right (a : Option Nat) : omax a none = a := by
  cases a <;> rfl

theorem omax_assoc (a c e : Option Nat) : omax (omax a c) e = omax a (omax c e) := by
  cases a <;> cases c <;> cases e <;> simp [omax, Nat.max_assoc]

/-- The largest depth at which `q` occurs among the visit events of a trace. -/
def trMax : Trace → Path → Option Nat
  | [], _ => none
  | (r, e) :: tr, q => if r = q then omax (some e) (trMax tr q) else trMax tr q

theorem trMax_append (t1 t2 : Trace) (q : Path) :
    trMax (t1 ++ t2) q = omax (trMax t1 q) (trMax t2 q) := by
  induction t1 with
  | nil => rfl
  | cons re tr ih =>
    obtain ⟨r, e⟩ := re
    by_cases h : r = q <;> simp [trMax, h, ih, omax_assoc]

/-- A visiting function whose successful runs turn the map into the pointwise
maximum of the incoming map and the depths of the recorded visit events. -/
def VisitMax (visit : Path → Path → DepthMap → Nat → Option (Bool × DepthMap × Trace)) : Prop :=
  ∀ p b m d m2 tr, visit p b m d = some (true, m2, tr) →
    ∀ q, lookupD m2 q = omax (lookupD m q) (trMax tr q)

theorem scanStep_max (visit : Path → Path → DepthMap → Nat → Option (Bool × DepthMap × Trace))
    (hv : VisitMax visit) (p b : Path) :
    ∀ (lines : List Line) (count : Nat) (m : DepthMap) (d : Nat) (m2 : DepthMap) (tr : Trace),
      scanStep visit p b lines count m d = some (true, m2, tr) →
      ∀ q, lookupD m2 q = omax (lookupD m q) (trMax tr q) := by
  intro lines
  induction lines with
  | nil =>
    intro count m d m2 tr h q
    rw [scanStep_nil] at h
    simp only [Option.some.injEq, Prod.mk.injEq] at h
    obtain ⟨-, hm, htr⟩ := h
    subst hm
    rw [← htr]
    exact (omax_none_right _).symm
  | cons line rest ih =>
    intro count m d m2 tr h q
    by_cases hc : count < 5
    · cases hp : parseLine line with
      | none =>
        rw [scanStep_cons_plain visit p b line rest count m d hc hp] at h
        exact ih _ _ _ _ _ h q
      | some o =>
        cases o with
        | none =>
          rw [scanStep_cons_malformed visit p b line rest count m d hc hp] at h
          exact ih _ _ _ _ _ h q
        | some name =>
          cases hvv : visit (resolveInc b name) (parentPath (resolveInc b name)) m (d + 1) with
          | none =>
            rw [scanStep_cons_dir_none visit p b line rest count m d name hc hp hvv] at h
            cases h
          | some r =>
            obtain ⟨ok, m3, tr3⟩ := r
            cases ok with
            | false =>
              rw [scanStep_cons_dir_false visit p b line rest count m d name m3 tr3 hc hp hvv]
                at h
              simp at h
            | true =>
              rw [scanStep_cons_dir_true visit p b line rest count m d name m3 tr3 hc hp hvv]
                at h
              rcases appendTr_eq_some.mp h with ⟨tr4, hs, rfl⟩
              rw [ih _ _ _ _ _ hs q, hv _ _ _ _ _ _ hvv q, trMax_append, omax_assoc]
    · rw [scanStep_stop visit p b _ count m d (by omega)] at h
      simp only [Option.some.injEq, Prod.mk.injEq] at h
      obtain ⟨-, hm, htr⟩ := h
      subst hm
      rw [← htr]
      exact (omax_none_right _).symm

theorem findIncludes_max (fs : FS) : ∀ fuel, VisitMax (findIncludes fs fuel) := by
  intro fuel
  induction fuel with
  | zero =>
    intro p b m d m2 tr h
    rw [findIncludes_zero] at h
    cases h
  | succ g ih =>
    intro p b m d m2 tr h q
    cases hl : lookupD m p with
    | some dOld =>
      by_cases hlt : dOld < d
      · rw [findIncludes_update fs g p b m d dOld hl hlt] at h
        simp only [Option.some.injEq, Prod.mk.injEq] at h
        obtain ⟨-, hm, htr⟩ := h
        subst hm
        rw [← htr, lookupD_setD]
        by_cases hq : p = q
        · subst hq
          rw [if_pos rfl, hl]
          simp [trMax, omax, Nat.max_eq_right hlt.le]
        · rw [if_neg hq]
          have htr0 : trMax [(p, d)] q = none := by simp [trMax, hq]
          rw [htr0, omax_none_right]
      · rw [findIncludes_rescan fs g p b m d dOld hl hlt] at h
        rcases withEvent_eq_some.mp h with ⟨tr0, hr, rfl⟩
        cases hfs : fs p with
        | none =>
          rw [readFile_closed fs _ p b m d hfs] at hr
          simp at hr
        | some ls =>
          rw [readFile_open fs _ p b m d ls hfs] at hr
          have h2 := scanStep_max _ ih p b ls 0 m d m2 tr0 hr q
          by_cases hq : p = q
          · subst hq
            have hmax : omax (some dOld) (some d) = some dOld := by
              simp [omax, Nat.max_eq_left (by omega : d ≤ dOld)]
            have htr : trMax ((p, d) :: tr0) p = omax (some d) (trMax tr0 p) := by
              simp [trMax]
            rw [h2, hl, htr, ← omax_assoc, hmax]
          · have htr : trMax ((p, d) :: tr0) q = trMax tr0 q := by simp [trMax, hq]
            rw [h2, htr]
    | none =>
      rw [findIncludes_new fs g p b m d hl] at h
      rcases withEvent_eq_some.mp h with ⟨tr0, hr, rfl⟩
      cases hfs : fs p with
      | none =>
        rw [readFile_closed fs _ p b _ d hfs] at hr
        simp at hr
      | some ls =>
        rw [readFile_open fs _ p b _ d ls hfs] at hr
        have h2 := scanStep_max _ ih p b ls 0 (setD m p d) d m2 tr0 hr q
        by_cases hq : p = q
        · subst hq
          have htr : trMax ((p, d) :: tr0) p = omax (some d) (trMax tr0 p) := by
            simp [trMax]
          rw [h2, lookupD_setD, if_pos rfl, hl, htr]
          rfl
        · have htr : trMax ((p, d) :: tr0) q = trMax tr0 q := by simp [trMax, hq]
          rw [h2, lookupD_setD, if_neg hq, htr]

/-- C4: on a walk that encounters no open failures (a successful walk), every
file's final entry in the depth map is exactly the largest depth at which the
file was encountered (visited) during the walk; and across any successful call
an entry that is present never decreases — it is still present afterwards with
a value at least as large. -/
theorem c4_depth_invariant (fs : FS) :
    (∀ (fuel : Nat) (root b : Path) (m2 : DepthMap) (tr : Trace),
        findIncludes fs fuel root b [] 0 = some (true, m2, tr) →
        ∀ q, lookupD m2 q = trMax tr q) ∧
      (∀ (fuel : Nat) (p b : Path) (m : DepthMap) (d : Nat) (m2 : DepthMap) (tr : Trace),
        findIncludes fs fuel p b m d = some (true, m2, tr) →
        ∀ q v, lookupD m q = some v → ∃ w, lookupD m2 q = some w ∧ v ≤ w) := by
  constructor
  · intro fuel root b m2 tr h q
    have := findIncludes_max fs fuel root b [] 0 m2 tr h q
    simpa [lookupD, omax] using this
  · intro fuel p b m d m2 tr h q v hv
    have hq := findIncludes_max fs fuel p b m d m2 tr h q
    rw [hv] at hq
    cases htr : trMax tr q with
    | none =>
      rw [htr] at hq
      exact ⟨v, by simpa [omax] using hq, le_refl v⟩
    | some w2 =>
      rw [htr] at hq
      exact ⟨max v w2, by simpa [omax] using hq, Nat.le_max_left v w2⟩

theorem c4_witness :
    lookupD [("/r", 0), ("/b", 1)] "/b" = trMax [("/r", 0), ("/b", 1)] "/b" :=
  (c4_depth_invariant fsC5cex).1 2 "/r" "" [("/r", 0), ("/b", 1)] [("/r", 0), ("/b", 1)]
    (by decide) "/b"

/-! ## Claim C3: reachability, acyclicity and the discovery invariant -/

/-- The include names the scan loop of `findIncludes` discovers in a list of
lines, starting from counter value `count`, assuming every recursive visit
succeeds: a mirror of `scanStep` that records the resolved paths instead of
recursing. -/
def windowFrom (b : Path) : List Line → Nat → List Path
  | [], _ => []
  | line :: rest, count =>
    if count < 5 then
      match parseLine line with
      | some (some name) => resolveInc b name :: windowFrom b rest 0
      | some none => windowFrom b rest count
      | none => windowFrom b rest (count + 1)
    else []

/-- The includes of `p` that lie inside the scan window. -/
def windowIncludes (fs : FS) (p : Path) : List Path :=
  match fs p with
  | none => []
  | some ls => windowFrom (parentPath p) ls 0

/-- One discovered-include edge. -/
def WindowStep (fs : FS) (p q : Path) : Prop := q ∈ windowIncludes fs p

/-- Reachability through includes that lie inside scan windows. -/
def WindowReach (fs : FS) (root q : Path) : Prop :=
  Relation.ReflTransGen (WindowStep fs) root q

/-- Every well-formed include directive of the file, anywhere in it (no scan
window): the edges of the include graph as the specification reads them. -/
def fileIncludesAll (fs : FS) (p : Path) : List Path :=
  match fs p with
  | none => []
  | some ls =>
    ls.filterMap (fun l => Option.map (resolveInc (parentPath p)) ((parseLine l).bind id))

/-- One include-directive edge (window-free). -/
def IncStep (fs : FS) (p q : Path) : Prop := q ∈ fileIncludesAll fs p

/-- Reachability from the root via include directives. -/
def ReachAll (fs : FS) (root q : Path) : Prop := Relation.ReflTransGen (IncStep fs) root q

/-- The include graph has no directed cycle. -/
def AcyclicAll (fs : FS) : Prop := ∀ p, ¬ Relation.TransGen (IncStep fs) p p

theorem transGen_lt_of_step_lt {α : Type} {r : α → α → Prop} {f : α → Nat}
    (hf : ∀ a c, r a c → f a < f c) :
    ∀ a c, Relation.TransGen r a c → f a < f c := by
  intro a c h
  induction h with
  | single h1 => exact hf _ _ h1
  | tail h1 h2 ih => exact lt_trans ih (hf _ _ h2)

theorem acyclic_of_rank (fs : FS) (f : Path → Nat)
    (hf : ∀ p q, IncStep fs p q → f p < f q) : AcyclicAll fs :=
  fun p h => lt_irrefl (f p) (transGen_lt_of_step_lt hf p p h)

theorem windowIncludes_open {fs : FS} {p : Path} {ls : List Line} (hfs : fs p = some ls) :
    windowIncludes fs p = windowFrom (parentPath p) ls 0 := by
  unfold windowIncludes
  simp only [hfs]

theorem windowFrom_stop (b : Path) (line : Line) (rest : List Line) (count : Nat)
    (hc : ¬ count < 5) : windowFrom b (line :: rest) count = [] := by
  rw [windowFrom, if_neg hc]

theorem windowFrom_plain (b : Path) (line : Line) (rest : List Line) (count : Nat)
    (hc : count < 5) (hp : parseLine line = none) :
    windowFrom b (line :: rest) count = windowFrom b rest (count + 1) := by
  rw [windowFrom, if_pos hc]
  simp only [hp]

theorem windowFrom_malformed (b : Path) (line : Line) (rest : List Line) (count : Nat)
    (hc : count < 5) (hp : parseLine line = some none) :
    windowFrom b (line :: rest) count = windowFrom b rest count := by
  rw [windowFrom, if_pos hc]
  simp only [hp]

theorem windowFrom_dir (b : Path) (line : Line) (rest : List Line) (count : Nat) (name : Line)
    (hc : count < 5) (hp : parseLine line = some (some name)) :
    windowFrom b (line :: rest) count = resolveInc b name :: windowFrom b rest 0 := by
  rw [windowFrom, if_pos hc]
  simp only [hp]

/-- Closedness of the depth map under discovered includes, excused for the
files in `S` (the stack of scans in progress). -/
def ClosedE (fs : FS) (S : List Path) (m : DepthMap) : Prop :=
  ∀ q ∈ keys m, q ∉ S → ∀ r ∈ windowIncludes fs q, r ∈ keys m

/-- Every recorded file opens and is window-reachable from the root. -/
def GoodKeys (fs : FS) (root : Path) (m : DepthMap) : Prop :=
  ∀ q ∈ keys m, (fs q).isSome = true ∧ WindowReach fs root q

theorem closedE_cons {fs : FS} {S : List Path} {m : DepthMap} (p : Path)
    (h : ClosedE fs S m) : ClosedE fs (p :: S) m :=
  fun q hq hqS r hr => h q hq (fun hh => hqS (List.mem_cons_of_mem _ hh)) r hr

/-- The discovery invariant of a visiting function: a successful visit of a
reachable file, on a closed-except-stack well-formed map, grows the map,
records the file, and preserves closedness, well-formedness and key
uniqueness. -/
def VisitInv (fs : FS) (root : Path)
    (visit : Path → Path → DepthMap → Nat → Option (Bool × DepthMap × Trace)) : Prop :=
  ∀ (S : List Path) (p : Path) (m : DepthMap) (d : Nat) (m2 : DepthMap) (tr : Trace),
    ClosedE fs S m → GoodKeys fs root m → WindowReach fs root p →
    visit p (parentPath p) m d = some (true, m2, tr) →
    keys m ⊆ keys m2 ∧ p ∈ keys m2 ∧ ClosedE fs S m2 ∧ GoodKeys fs root m2 ∧
      ((keys m).Nodup → (keys m2).Nodup)

theorem scanStep_inv (fs : FS) (root : Path)
    (visit : Path → Path → DepthMap → Nat → Option (Bool × DepthMap × Trace))
    (hv : VisitInv fs root visit) :
    ∀ (lines : List Line) (S : List Path) (p b : Path) (count : Nat) (m : DepthMap) (d : Nat)
      (m2 : DepthMap) (tr : Trace),
      ClosedE fs (p :: S) m → GoodKeys fs root m →
      (∀ r ∈ windowFrom b lines count, WindowReach fs root r) →
      scanStep visit p b lines count m d = some (true, m2, tr) →
      keys m ⊆ keys m2 ∧ ClosedE fs (p :: S) m2 ∧ GoodKeys fs root m2 ∧
        ((keys m).Nodup → (keys m2).Nodup) ∧
        ∀ r ∈ windowFrom b lines count, r ∈ keys m2 := by
  intro lines
  induction lines with
  | nil =>
    intro S p b count m d m2 tr hcl hgood hwin h
    rw [scanStep_nil] at h
    simp only [Option.some.injEq, Prod.mk.injEq] at h
    obtain ⟨-, hm, -⟩ := h
    subst hm
    exact ⟨fun a ha => ha, hcl, hgood, fun hh => hh, fun r hr => absurd hr (by simp [windowFrom])⟩
  | cons line rest ih =>
    intro S p b count m d m2 tr hcl hgood hwin h
    by_cases hc : count < 5
    · cases hp : parseLine line with
      | none =>
        rw [scanStep_cons_plain visit p b line rest count m d hc hp] at h
        rw [windowFrom_plain b line rest count hc hp] at hwin ⊢
        exact ih S p b (count + 1) m d m2 tr hcl hgood hwin h
      | some o =>
        cases o with
        | none =>
          rw [scanStep_cons_malformed visit p b line rest count m d hc hp] at h
          rw [windowFrom_malformed b line rest count hc hp] at hwin ⊢
          exact ih S p b count m d m2 tr hcl hgood hwin h
        | some name =>
          rw [windowFrom_dir b line rest count name hc hp] at hwin ⊢
          cases hvv : visit (resolveInc b name) (parentPath (resolveInc b name)) m (d + 1) with
          | none =>
            rw [scanStep_cons_dir_none visit p b line rest count m d name hc hp hvv] at h
            cases h
          | some r =>
            obtain ⟨ok, m3, tr3⟩ := r
            cases ok with
            | false =>
              rw [scanStep_cons_dir_false visit p b line rest count m d name m3 tr3 hc hp hvv]
                at h
              simp at h
            | true =>
              rw [scanStep_cons_dir_true visit p b line rest count m d name m3 tr3 hc hp hvv]
                at h
              rcases appendTr_eq_some.mp h with ⟨tr4, hs, rfl⟩
              have habs : WindowReach fs root (resolveInc b name) :=
                hwin _ (List.mem_cons_self _ _)
              obtain ⟨hsub1, hmem1, hcl1, hgood1, hnd1⟩ :=
                hv (p :: S) (resolveInc b name) m (d + 1) m3 tr3 hcl hgood habs hvv
              obtain ⟨hsub2, hcl2, hgood2, hnd2, hwk2⟩ :=
                ih S p b 0 m3 d m2 tr4 hcl1 hgood1
                  (fun r hr => hwin r (List.mem_cons_of_mem _ hr)) hs
              refine ⟨fun a ha => hsub2 (hsub1 ha), hcl2, hgood2,
                fun hh => hnd2 (hnd1 hh), ?_⟩
              intro r hr
              rcases List.mem_cons.mp hr with rfl | hr
              · exact hsub2 hmem1
              · exact hwk2 r hr
    · rw [scanStep_stop visit p b _ count m d (by omega)] at h
      simp only [Option.some.injEq, Prod.mk.injEq] at h
      obtain ⟨-, hm, -⟩ := h
      subst hm
      rw [windowFrom_stop b line rest count hc]
      exact ⟨fun a ha => ha, hcl, hgood, fun hh => hh, fun r hr => absurd hr (by simp)⟩

theorem findIncludes_inv (fs : FS) (root : Path) :
    ∀ fuel, VisitInv fs root (findIncludes fs fuel) := by
  intro fuel
  induction fuel with
  | zero =>
    intro S p m d m2 tr _ _ _ h
    rw [findIncludes_zero] at h
    cases h
  | succ g ih =>
    intro S p m d m2 tr hcl hgood hreach h
    cases hl : lookupD m p with
    | some dOld =>
      by_cases hlt : dOld < d
      · rw [findIncludes_update fs g p (parentPath p) m d dOld hl hlt] at h
        simp only [Option.some.injEq, Prod.mk.injEq] at h
        obtain ⟨-, hm, -⟩ := h
        subst hm
        have hpk : p ∈ keys m := (mem_keys_iff m p).mpr ⟨dOld, hl⟩
        have hkeys : keys (setD m p d) = keys m := keys_setD_of_mem d hpk
        refine ⟨?_, ?_, ?_, ?_, ?_⟩
        · rw [hkeys]
          exact fun a ha => ha
        · rw [hkeys]
          exact hpk
        · intro q hq hqS r hr
          rw [hkeys] at hq ⊢
          exact hcl q hq hqS r hr
        · intro q hq
          rw [hkeys] at hq
          exact hgood q hq
        · rw [hkeys]
          exact fun hh => hh
      · rw [findIncludes_rescan fs g p (parentPath p) m d dOld hl hlt] at h
        rcases withEvent_eq_some.mp h with ⟨tr0, hr, rfl⟩
        cases hfs : fs p with
        | none =>
          rw [readFile_closed fs _ p (parentPath p) m d hfs] at hr
          simp at hr
        | some ls =>
          rw [readFile_open fs _ p (parentPath p) m d ls hfs] at hr
          have hpk : p ∈ keys m := (mem_keys_iff m p).mpr ⟨dOld, hl⟩
          have hwin : ∀ r ∈ windowFrom (parentPath p) ls 0, WindowReach fs root r := by
            intro r hrr
            have hstep : WindowStep fs p r := by
              unfold WindowStep
              rw [windowIncludes_open hfs]
              exact hrr
            exact Relation.ReflTransGen.tail hreach hstep
          obtain ⟨hsub, hcl3, hgood3, hnd3, hwk⟩ :=
            scanStep_inv fs root _ ih ls S p (parentPath p) 0 m d m2 tr0
              (closedE_cons p hcl) hgood hwin hr
          refine ⟨hsub, hsub hpk, ?_, hgood3, hnd3⟩
          intro q hq hqS r hr2
          by_cases hqp : q = p
          · subst hqp
            rw [windowIncludes_open hfs] at hr2
            exact hwk r hr2
          · refine hcl3 q hq ?_ r hr2
            intro hh
            rcases List.mem_cons.mp hh with hh | hh
            · exact hqp hh
            · exact hqS hh
    | none =>
      rw [findIncludes_new fs g p (parentPath p) m d hl] at h
      rcases withEvent_eq_some.mp h with ⟨tr0, hr, rfl⟩
      cases hfs : fs p with
      | none =>
        rw [readFile_closed fs _ p (parentPath p) _ d hfs] at hr
        simp at hr
      | some ls =>
        rw [readFile_open fs _ p (parentPath p) _ d ls hfs] at hr
        have hpnot : p ∉ keys m := by
          rw [mem_keys_iff]
          rintro ⟨v, hv⟩
          rw [hv] at hl
          cases hl
        have hkeys : keys (setD m p d) = keys m ++ [p] := keys_setD_of_not_mem d hpnot
        have hsub0 : keys m ⊆ keys (setD m p d) := by
          rw [hkeys]
          exact fun a ha => List.mem_append_left _ ha
        have hpmem0 : p ∈ keys (setD m p d) := by
          rw [hkeys]
          exact List.mem_append_right _ (List.mem_singleton.mpr rfl)
        have hclosed1 : ClosedE fs (p :: S) (setD m p d) := by
          intro q hq hqS r hr2
          rw [hkeys] at hq ⊢
          rcases List.mem_append.mp hq with hq | hq
          · have hq2 : q ∉ S := fun hh => hqS (List.mem_cons_of_mem _ hh)
            have hqp : q ∉ ([p] : List Path) := by
              intro hh
              rcases List.mem_singleton.mp hh with rfl
              exact hqS (List.mem_cons_self _ _)
            exact List.mem_append_left _ (hcl q hq hq2 r hr2)
          · rcases List.mem_singleton.mp hq with rfl
            exact absurd (List.mem_cons_self _ _) hqS
        have hgood1 : GoodKeys fs root (setD m p d) := by
          intro q hq
          rw [hkeys] at hq
          rcases List.mem_append.mp hq with hq | hq
          · exact hgood q hq
          · rcases List.mem_singleton.mp hq with rfl
            refine ⟨?_, hreach⟩
            rw [hfs]
            rfl
        have hwin : ∀ r ∈ windowFrom (parentPath p) ls 0, WindowReach fs root r := by
          intro r hrr
          have hstep : WindowStep fs p r := by
            unfold WindowStep
            rw [windowIncludes_open hfs]
            exact hrr
          exact Relation.ReflTransGen.tail hreach hstep
        obtain ⟨hsub, hcl3, hgood3, hnd3, hwk⟩ :=
          scanStep_inv fs root _ ih ls S p (parentPath p) 0 (setD m p d) d m2 tr0
            hclosed1 hgood1 hwin hr
        refine ⟨fun a ha => hsub (hsub0 ha), hsub hpmem0, ?_, hgood3, ?_⟩
        · intro q hq hqS r hr2
          by_cases hqp : q = p
          · subst hqp
            rw [windowIncludes_open hfs] at hr2
            exact hwk r hr2
          · refine hcl3 q hq ?_ r hr2
            intro hh
            rcases List.mem_cons.mp hh with hh | hh
            · exact hqp hh
            · exact hqS hh
        · intro hndm
          refine hnd3 ?_
          rw [hkeys]
          refine List.nodup_append.mpr ⟨hndm, List.nodup_singleton p, ?_⟩
          intro a ha hpa
          rcases List.mem_singleton.mp hpa with rfl
          exact hpnot ha

/-- The emission order is a permutation of the depth map's keys (shared between
the ordering and uniqueness arguments). -/
theorem convert_perm_keys (m : DepthMap) :
    (convertActiveIncludesToVector m).Perm (keys m) := by
  have hmap : (m.map (fun kv => (kv.2, kv.1))).map Prod.snd = keys m := by
    rw [List.map_map]
    exact List.map_congr_left (fun a _ => rfl)
  have hp := (List.perm_insertionSort descR (m.map (fun kv => (kv.2, kv.1)))).map Prod.snd
  rw [hmap] at hp
  exact hp

/-- C3 (amended): for every acyclic include graph whose window-reachable files
all open successfully, whenever the discovery walk from the root completes
successfully, every file reachable from the root via include directives that
are discovered within the scan windows appears in the final output exactly
once. -/
theorem c3_reachable_once (fs : FS) (root : Path) (fuel : Nat) (m : DepthMap) (tr : Trace)
    (hacyc : AcyclicAll fs)
    (hopen : ∀ q, WindowReach fs root q → (fs q).isSome = true)
    (h : findIncludes fs fuel root (parentPath root) [] 0 = some (true, m, tr)) :
    ∀ q, WindowReach fs root q → List.count q (emittedFiles fs m) = 1 := by
  obtain ⟨-, hroot, hclosed, hgood, hnd⟩ :=
    findIncludes_inv fs root fuel [] root [] 0 m tr
      (fun q hq => absurd hq (by simp [keys])) (fun q hq => absurd hq (by simp [keys]))
      Relation.ReflTransGen.refl h
  have hndk : (keys m).Nodup := hnd (by simp [keys])
  have hreachkeys : ∀ q, WindowReach fs root q → q ∈ keys m := by
    intro q hq
    induction hq with
    | refl => exact hroot
    | tail h1 h2 ih => exact hclosed _ ih (List.not_mem_nil _) _ h2
  intro q hq
  have hqk := hreachkeys q hq
  have hqopen : (fs q).isSome = true := (hgood q hqk).1
  have hnodup2 : (convertActiveIncludesToVector m).Nodup :=
    ((convert_perm_keys m).nodup_iff).mpr hndk
  have hmem : q ∈ emittedFiles fs m :=
    List.mem_filter.mpr ⟨(convert_perm_keys m).mem_iff.mpr hqk, hqopen⟩
  exact List.count_eq_one_of_mem (List.Nodup.filter _ hnodup2) hmem

/-- Input for the C3 witness: a single root file with no includes. -/
def fsC3w : FS := fun p => if p = "/r" then some ["hello".toList] else none

theorem fsC3w_no_step : ∀ p q, ¬ IncStep fsC3w p q := by
  intro p q h
  unfold IncStep at h
  by_cases hp : p = "/r"
  · subst hp
    have hfi : fileIncludesAll fsC3w "/r" = [] := by decide
    rw [hfi] at h
    simp at h
  · have hfs : fsC3w p = none := by simp [fsC3w, hp]
    unfold fileIncludesAll at h
    simp only [hfs] at h
    simp at h

theorem fsC3w_no_wstep : ∀ p q, ¬ WindowStep fsC3w p q := by
  intro p q h
  unfold WindowStep at h
  by_cases hp : p = "/r"
  · subst hp
    have hwi : windowIncludes fsC3w "/r" = [] := by decide
    rw [hwi] at h
    simp at h
  · have hfs : fsC3w p = none := by simp [fsC3w, hp]
    unfold windowIncludes at h
    simp only [hfs] at h
    simp at h

theorem fsC3w_reach {q : Path} (h : WindowReach fsC3w "/r" q) : q = "/r" := by
  induction h with
  | refl => rfl
  | tail h1 h2 ih => exact absurd h2 (fsC3w_no_wstep _ _)

theorem c3_witness : List.count "/r" (emittedFiles fsC3w [("/r", 0)]) = 1 :=
  c3_reachable_once fsC3w "/r" 1 [("/r", 0)] [("/r", 0)]
    (acyclic_of_rank fsC3w (fun _ => 0) (fun p q hpq => absurd hpq (fsC3w_no_step p q)))
    (fun q hq => by rw [fsC3w_reach hq]; decide) (by decide) "/r" Relation.ReflTransGen.refl

/-- C3 as the specification states it: on every acyclic graph whose reachable
files (via include directives anywhere in their files) all open, a completed
walk puts every reachable file into the output exactly once. -/
def c3Claim : Prop :=
  ∀ (fs : FS) (root : Path) (fuel : Nat) (m : DepthMap) (tr : Trace),
    AcyclicAll fs → (∀ q, ReachAll fs root q → (fs q).isSome = true) →
    findIncludes fs fuel root (parentPath root) [] 0 = some (true, m, tr) →
    ∀ q, ReachAll fs root q → List.count q (emittedFiles fs m) = 1

/-- Input for the C3 counterexample: the root has 6 plain lines, then an
include of `"/b"`; `"/b"` exists and opens. -/
def fsC3cex : FS := fun p =>
  if p = "/r" then some (List.replicate 6 ("body".toList) ++ ["#include \"b\"".toList])
  else if p = "/b" then some ["hello".toList] else none

theorem fsC3cex_step {p q : Path} (h : IncStep fsC3cex p q) : p = "/r" ∧ q = "/b" := by
  unfold IncStep at h
  by_cases hp : p = "/r"
  · subst hp
    have hfi : fileIncludesAll fsC3cex "/r" = ["/b"] := by decide
    rw [hfi] at h
    exact ⟨rfl, List.mem_singleton.mp h⟩
  · by_cases hb : p = "/b"
    · subst hb
      have hfi : fileIncludesAll fsC3cex "/b" = [] := by decide
      rw [hfi] at h
      simp at h
    · have hfs : fsC3cex p = none := by simp [fsC3cex, hp, hb]
      unfold fileIncludesAll at h
      simp only [hfs] at h
      simp at h

theorem fsC3cex_reach {q : Path} (h : ReachAll fsC3cex "/r" q) : q = "/r" ∨ q = "/b" := by
  induction h with
  | refl => exact Or.inl rfl
  | tail h1 h2 ih => exact Or.inr (fsC3cex_step h2).2

/-- C3 counterexample: in the acyclic graph where the root includes `"/b"` only
after 6 plain lines, `"/b"` is reachable via an include directive and every
file opens, the walk completes successfully, yet `"/b"` is absent from the
output (the early-stop heuristic never discovers the directive) — refuting the
claim for files reachable via directives outside the scan window. -/
theorem c3_cex : ¬ c3Claim := by
  intro h
  have hacyc : AcyclicAll fsC3cex := by
    refine acyclic_of_rank fsC3cex (fun p => if p = "/b" then 1 else 0) ?_
    intro p q hpq
    rcases fsC3cex_step hpq with ⟨rfl, rfl⟩
    decide
  have hopen : ∀ q, ReachAll fsC3cex "/r" q → (fsC3cex q).isSome = true := by
    intro q hq
    rcases fsC3cex_reach hq with rfl | rfl <;> decide
  have hb : ReachAll fsC3cex "/r" "/b" := by
    refine Relation.ReflTransGen.single ?_
    show "/b" ∈ fileIncludesAll fsC3cex "/r"
    have hfi : fileIncludesAll fsC3cex "/r" = ["/b"] := by decide
    rw [hfi]
    exact List.mem_singleton.mpr rfl
  have heval : findIncludes fsC3cex 2 "/r" (parentPath "/r") [] 0 =
      some (true, [("/r", 0)], [("/r", 0)]) := by decide
  have hres := h fsC3cex "/r" 2 [("/r", 0)] [("/r", 0)] hacyc hopen heval "/b" hb
  exact absurd hres (by decide)

theorem c6_witness :
    (convertActiveIncludesToVector [("/a", 1), ("/b", 2)]).Perm (keys [("/a", 1), ("/b", 2)]) ∧
      (convertActiveIncludesToVector [("/a", 1), ("/b", 2)]).Pairwise
        (fun p q => ∀ dp dq, lookupD [("/a", 1), ("/b", 2)] p = some dp →
          lookupD [("/a", 1), ("/b", 2)] q = some dq → dq ≤ dp) :=
  c6_emission_order [("/a", 1), ("/b", 2)] (by decide)

end Wgsl
